import Mathlib

/-!
Shallow embedding of the incremental CSV ingestion and merge engine of
`src/app/main.py` (omron-body-analysis).

Modelling conventions:
* A measurement timestamp (`測定日`, a naive datetime) is a natural number of
  minutes; its calendar day is `ts / 1440` (the date portion, no timezone
  conversion), which is monotone in the timestamp exactly as taking `.dt.date`
  of a datetime is.
* Metric columns are rationals (Python floats used only as exact decimals).
* `pd.DataFrame.sort_values` (default `kind='quicksort'`, which is NOT
  stable) is embedded as an insertion sort on the timestamp key that keeps
  equal-timestamp rows in frame order.  The ordering of equal-timestamp rows
  after the sort is implementation-defined in the program, so no theorem
  below relies on the tie order the embedding happens to fix: the claims
  proved here only use which days occur, the maximal timestamp per day, the
  sortedness of the result and its membership, all of which agree for every
  sorted permutation of the rows.  `groupby("日付のみ", as_index=False).last()`
  is embedded as: unique group keys in ascending order, and for each key the
  last row of that group in frame order.
* The filesystem state the script touches (the `processed_files.json` ledger
  and the `cached_merged_df.pkl` snapshot) is explicit state threaded through
  the pipeline function; `open` on an existing but unreadable ledger file
  raises in the source (the `open` call sits outside the `try`), which is the
  `Except.error` outcome here.
-/

/-- One measurement row: timestamp (minutes, naive) plus the metric columns
(`体重(kg)`, `体脂肪(%)`, `骨格筋(%)`). -/
structure Record where
  ts : Nat
  weight : ℚ
  bodyFat : ℚ
  muscle : ℚ
deriving DecidableEq, Repr

/-- Calendar day of a record: the date portion of its timestamp
(`merged_df["測定日"].dt.date`, line 84). -/
def dayOf (r : Record) : Nat := r.ts / 1440

/-- Generic stable insertion of `a` into a list by a `Nat` key: `a` goes in
front of the first element whose key is not smaller, so equal-key elements
keep their original relative order (a stable ascending sort step). -/
def insertK {α : Type} (key : α → Nat) (a : α) : List α → List α
  | [] => [a]
  | b :: l => if key b < key a then b :: insertK key a l else a :: b :: l

/-- Ascending sort by a `Nat` key; embeds `sort_values` (lines 83, 86) and
the ascending ordering of `groupby` keys (line 85).  The program's sort is
`kind='quicksort'`, whose ordering of equal keys is implementation-defined;
this embedding fixes it to frame order, and the theorems below are stated so
that they hold for every sorted permutation (they never depend on the order
chosen among equal keys). -/
def sortK {α : Type} (key : α → Nat) : List α → List α
  | [] => []
  | a :: l => insertK key a (sortK key l)

/-- Unique elements of a list of group keys (each calendar day once). -/
def dedupKeys : List Nat → List Nat
  | [] => []
  | d :: l => if d ∈ dedupKeys l then dedupKeys l else d :: dedupKeys l

/-- `groupby("日付のみ", as_index=False).last()` (line 85): group keys are the
distinct calendar days in ascending order; each group contributes the last row
of that day in frame order. -/
def groupbyLast (rows : List Record) : List Record :=
  (sortK id (dedupKeys (rows.map dayOf))).filterMap
    (fun d => (rows.filter (fun r => dayOf r == d)).getLast?)

/-- The merge & dedup engine applied to the concatenated rows (lines 83-86):
sort ascending by full timestamp, group by calendar day keeping the last row
per group, then re-sort by timestamp. -/
def dedupe (rows : List Record) : List Record :=
  sortK (fun r => r.ts) (groupbyLast (sortK (fun r => r.ts) rows))

/-- Largest key occurring in a list (`0` for the empty list). -/
def maxK {α : Type} (key : α → Nat) : List α → Nat
  | [] => 0
  | a :: l => max (key a) (maxK key l)

/-- The ledger: the JSON object mapping file name to last-processed
modification timestamp, as an association list. -/
abbrev Ledger : Type := List (String × Nat)

/-- Dictionary lookup `d[k]` / `k in d`. -/
def lget (l : Ledger) (k : String) : Option Nat :=
  (l.find? (fun p => p.1 == k)).map (fun p => p.2)

/-- Dictionary assignment `d[k] = v`: overwrite in place when the key exists,
append otherwise (Python dict update semantics). -/
def lset (l : Ledger) (k : String) (v : Nat) : Ledger :=
  if l.any (fun p => p.1 == k) then
    l.map (fun p => if p.1 == k then (k, v) else p)
  else l ++ [(k, v)]

/-- The possible states of the persisted `processed_files.json` file:
absent; present but not openable (`open` raises, e.g. permission denied);
present but `json.load` raises (corrupt/unreadable content); a legacy JSON
list; or a JSON object giving a ledger mapping. -/
inductive LedgerDisk : Type
  | absent
  | unreadable
  | malformed
  | legacyList
  | mapping (m : Ledger)
deriving DecidableEq

/-- `load_processed_files` (lines 38-48): missing file gives `{}`; a failing
`open` on an existing file raises (it is outside the `try`); a failing
`json.load` gives `{}`; a legacy list gives `{}`; a JSON object is returned
as-is. -/
def load_processed_files : LedgerDisk → Except Unit Ledger
  | .absent => .ok []
  | .unreadable => .error ()
  | .malformed => .ok []
  | .legacyList => .ok []
  | .mapping m => .ok m

/-- `save_processed_files` (lines 51-53): `json.dump` of the mapping. -/
def save_processed_files (m : Ledger) : LedgerDisk := .mapping m

/-- A source file as the scanner sees it: its name, its current modification
timestamp, and its parse outcome (`some rows` when `pd.read_csv` plus the
`測定日` conversion succeed, `none` when they raise). -/
structure SrcFile where
  name : String
  mtime : Nat
  parsed : Option (List Record)
deriving DecidableEq

/-- `fname.endswith(".csv")` (line 65). -/
def hasCsvExt (s : String) : Bool :=
  s.data.reverse.take 4 == ['v', 's', 'c', '.']

/-- Lexicographic order on strings by code point, as Python compares them. -/
def leChars : List Char → List Char → Bool
  | [], _ => true
  | _ :: _, [] => false
  | a :: as, b :: bs =>
    if a.toNat < b.toNat then true
    else if b.toNat < a.toNat then false
    else leChars as bs

/-- Name comparison for the directory listing sort. -/
def leName (a b : SrcFile) : Bool := leChars a.name.data b.name.data

/-- Insertion step of sorting the directory listing by name. -/
def insertName (a : SrcFile) : List SrcFile → List SrcFile
  | [] => [a]
  | b :: l => if leName b a then b :: insertName a l else a :: b :: l

/-- `sorted(os.listdir(DATA_DIR))` (line 64). -/
def sortName : List SrcFile → List SrcFile
  | [] => []
  | a :: l => insertName a (sortName l)

/-- The candidate files of one run: directory entries sorted by name, keeping
only `.csv` names (lines 64-66). -/
def csvFiles (dir : List SrcFile) : List SrcFile :=
  (sortName dir).filter (fun f => hasCsvExt f.name)

/-- Accumulated loop state of `load_and_merge_csv_files` (lines 59-80):
the concatenated parsed rows (`merged_df`), the updated ledger
(`updated_processed`), the `new_data_loaded` flag, and the names reported by
`st.error` for files whose parse failed. -/
structure ScanAcc where
  rows : List Record
  upd : Ledger
  newData : Bool
  errs : List String
deriving DecidableEq

/-- One iteration of the file loop (lines 68-80): skip when the ledger entry
equals the current modification time; otherwise parse, and on success append
the rows, record the modification time and set the flag, while on failure
only emit a diagnostic naming the file. -/
def processStep (processed : Ledger) (acc : ScanAcc) (f : SrcFile) : ScanAcc :=
  if lget processed f.name = some f.mtime then acc
  else
    match f.parsed with
    | some recs =>
      { acc with
        rows := acc.rows ++ recs
        upd := lset acc.upd f.name f.mtime
        newData := true }
    | none => { acc with errs := acc.errs ++ [f.name] }

/-- The whole file loop, starting from the empty frame, a copy of the loaded
ledger, and a cleared flag (lines 59-62). -/
def processFold (processed : Ledger) (files : List SrcFile) : ScanAcc :=
  files.foldl (processStep processed) ⟨[], processed, false, []⟩

/-- `needs_processing` as the loop decides it (lines 70-71): a file is
reprocessed unless its ledger entry exists and equals the current
modification timestamp. -/
def needsProcessing (processed : Ledger) (f : SrcFile) : Bool :=
  !(lget processed f.name == some f.mtime)

/-- The filesystem state owned by the pipeline: the ledger file and the
snapshot pickle (`cached_merged_df.pkl`). -/
structure FS where
  ledger : LedgerDisk
  snapshot : Option (List Record)
deriving DecidableEq

/-- Lines 60-94 of `load_and_merge_csv_files`, given the loaded ledger: run
the file loop over the sorted `.csv` entries; if new data was loaded, dedupe
the concatenated rows, persist them as the new snapshot, persist the updated
ledger, and return the deduped frame with `True`; otherwise return the
existing snapshot (or the empty frame) with `False`, touching nothing. -/
def mergeRun (dir : List SrcFile) (fs : FS) (processed : Ledger) :
    List Record × Bool × FS × List String :=
  if (processFold processed (csvFiles dir)).newData then
    (dedupe (processFold processed (csvFiles dir)).rows, true,
      ⟨save_processed_files (processFold processed (csvFiles dir)).upd,
        some (dedupe (processFold processed (csvFiles dir)).rows)⟩,
      (processFold processed (csvFiles dir)).errs)
  else
    match fs.snapshot with
    | some d => (d, false, fs, (processFold processed (csvFiles dir)).errs)
    | none => ([], false, fs, (processFold processed (csvFiles dir)).errs)

/-- `load_and_merge_csv_files` (lines 58-94) as a state transformer: load the
ledger (propagating an `open` failure to the caller), then run the rest of
the function on the loaded mapping. -/
def runPipeline (dir : List SrcFile) (fs : FS) :
    Except Unit (List Record × Bool × FS × List String) :=
  (load_processed_files fs.ledger).map (mergeRun dir fs)

/-- What the top level does with the result (lines 98-107): an empty frame is
the terminal "no valid data" message (`st.error` + `st.stop`), otherwise the
dashboard is rendered with a status note driven by the flag. -/
inductive MainView : Type
  | noDataError
  | dashboard (newData : Bool)
deriving DecidableEq

/-- Lines 100-107: `df.empty` selects the terminal error, else the dashboard. -/
def mainView (ds : List Record) (newData : Bool) : MainView :=
  if ds.isEmpty then .noDataError else .dashboard newData

/-- The record a group contributes, stated without the sort: the winner of a
group is the last of the group once the later elements have been folded
through; ties on the key go to the element already chosen (which occurs later
in the original order). -/
def lastStep {α : Type} (key : α → Nat) (a : α) : Option α → α
  | none => a
  | some m => if key m < key a then a else m

/-- The record with the largest key, preferring the last occurrence of that
key in the original order. -/
def lastMaxK {α : Type} (key : α → Nat) : List α → Option α
  | [] => none
  | a :: l => some (lastStep key a (lastMaxK key l))

theorem insertK_ne_nil {α : Type} (key : α → Nat) (a : α) (l : List α) :
    insertK key a l ≠ [] := by
  cases l with
  | nil => simp [insertK]
  | cons b t => simp only [insertK]; split <;> simp

theorem perm_insertK {α : Type} (key : α → Nat) (a : α) (l : List α) :
    List.Perm (insertK key a l) (a :: l) := by
  induction l with
  | nil => simp [insertK]
  | cons b t ih =>
    simp only [insertK]
    split
    · exact (ih.cons b).trans (List.Perm.swap a b t)
    · exact List.Perm.refl _

theorem sortK_perm {α : Type} (key : α → Nat) (l : List α) :
    List.Perm (sortK key l) l := by
  induction l with
  | nil => exact List.Perm.refl _
  | cons a t ih =>
    exact (perm_insertK key a (sortK key t)).trans (ih.cons a)

theorem mem_insertK {α : Type} (key : α → Nat) (a x : α) (l : List α) :
    x ∈ insertK key a l ↔ x = a ∨ x ∈ l := by
  have := (perm_insertK key a l).mem_iff (a := x)
  simpa using this

theorem sorted_insertK {α : Type} (key : α → Nat) (a : α) (l : List α)
    (h : List.Pairwise (fun x y => key x ≤ key y) l) :
    List.Pairwise (fun x y => key x ≤ key y) (insertK key a l) := by
  induction l with
  | nil => simp [insertK]
  | cons b t ih =>
    rcases List.pairwise_cons.mp h with ⟨hb, ht⟩
    simp only [insertK]
    split
    · rename_i hba
      refine List.pairwise_cons.mpr ⟨?_, ih ht⟩
      intro x hx
      rcases (mem_insertK key a x t).mp hx with rfl | hxt
      · omega
      · exact hb x hxt
    · rename_i hba
      refine List.pairwise_cons.mpr ⟨?_, h⟩
      intro x hx
      rcases List.mem_cons.mp hx with rfl | hxt
      · omega
      · have := hb x hxt; omega

theorem sorted_sortK {α : Type} (key : α → Nat) (l : List α) :
    List.Pairwise (fun x y => key x ≤ key y) (sortK key l) := by
  induction l with
  | nil => simp [sortK]
  | cons a t ih => exact sorted_insertK key a _ ih

theorem insertK_of_le {α : Type} (key : α → Nat) (a : α) (l : List α)
    (h : ∀ x ∈ l, ¬ key x < key a) : insertK key a l = a :: l := by
  cases l with
  | nil => rfl
  | cons b t =>
    have hb : ¬ key b < key a := h b (List.mem_cons_self b t)
    simp [insertK, hb]

theorem filter_insertK {α : Type} (key : α → Nat) (q : α → Bool) (a : α)
    (l : List α) (h : List.Pairwise (fun x y => key x ≤ key y) l) :
    (insertK key a l).filter q =
      if q a then insertK key a (l.filter q) else l.filter q := by
  induction l with
  | nil => cases hqa : q a <;> simp [insertK, List.filter, hqa]
  | cons b t ih =>
    rcases List.pairwise_cons.mp h with ⟨hb, ht⟩
    simp only [insertK]
    by_cases hba : key b < key a
    · rw [if_pos hba]
      cases hqa : q a <;> cases hqb : q b <;>
        simp_all [List.filter_cons, ih ht, insertK, hba]
    · rw [if_neg hba]
      by_cases hqa : q a = true
      · rw [if_pos hqa, List.filter_cons_of_pos hqa, insertK_of_le]
        intro x hx
        have hx' := (List.mem_filter.mp hx).1
        rcases List.mem_cons.mp hx' with rfl | hxt
        · omega
        · have := hb x hxt; omega
      · rw [if_neg hqa, List.filter_cons_of_neg hqa]

theorem filter_sortK {α : Type} (key : α → Nat) (q : α → Bool) (l : List α) :
    (sortK key l).filter q = sortK key (l.filter q) := by
  induction l with
  | nil => simp [sortK]
  | cons a t ih =>
    simp only [sortK]
    rw [filter_insertK key q a _ (sorted_sortK key t), ih]
    cases hqa : q a
    · simp [List.filter_cons, hqa, sortK]
    · simp [List.filter_cons, hqa, sortK]

theorem getLast?_cons_of_ne_nil {α : Type} (a : α) (l : List α) (h : l ≠ []) :
    (a :: l).getLast? = l.getLast? := by
  cases l with
  | nil => exact absurd rfl h
  | cons b t => exact List.getLast?_cons_cons

theorem getLast?_insertK {α : Type} (key : α → Nat) (a : α) (l : List α)
    (h : List.Pairwise (fun x y => key x ≤ key y) l) :
    (insertK key a l).getLast? = some (lastStep key a l.getLast?) := by
  induction l with
  | nil => simp [insertK, lastStep]
  | cons b t ih =>
    rcases List.pairwise_cons.mp h with ⟨hb, ht⟩
    simp only [insertK]
    by_cases hba : key b < key a
    · rw [if_pos hba]
      rw [getLast?_cons_of_ne_nil b _ (insertK_ne_nil key a t), ih ht]
      rcases ht0 : t.getLast? with _ | m0
      · have : t = [] := List.getLast?_eq_none_iff.mp ht0
        subst this
        simp [lastStep, hba]
      · have hm0t : m0 ∈ t := List.mem_of_mem_getLast? (by simp [ht0])
        rw [getLast?_cons_of_ne_nil b t (by rintro rfl; cases hm0t)]
        rw [ht0]
    · rw [if_neg hba]
      rw [List.getLast?_cons_cons, List.getLast?_cons]
      rcases ht0 : t.getLast? with _ | m0
      · have : t = [] := List.getLast?_eq_none_iff.mp ht0
        subst this
        simp [lastStep, hba]
      · have hm0t : m0 ∈ t := List.mem_of_mem_getLast? (by simp [ht0])
        have hbm0 : key b ≤ key m0 := hb m0 hm0t
        simp only [Option.getD_some, lastStep]
        rw [if_neg (by omega)]

theorem getLast?_sortK {α : Type} (key : α → Nat) (l : List α) :
    (sortK key l).getLast? = lastMaxK key l := by
  induction l with
  | nil => simp [sortK, lastMaxK]
  | cons a t ih =>
    simp only [sortK, lastMaxK]
    rw [getLast?_insertK key a _ (sorted_sortK key t), ih]

theorem le_maxK {α : Type} (key : α → Nat) (l : List α) (x : α) (hx : x ∈ l) :
    key x ≤ maxK key l := by
  induction l with
  | nil => cases hx
  | cons a t ih =>
    rcases List.mem_cons.mp hx with rfl | hxt
    · simp only [maxK]; omega
    · have := ih hxt; simp only [maxK]; omega

theorem lastMaxK_spec {α : Type} (key : α → Nat) (l : List α) (h : l ≠ []) :
    ∃ m, lastMaxK key l = some m ∧ m ∈ l ∧ key m = maxK key l ∧
      (l.filter (fun x => key x == maxK key l)).getLast? = some m := by
  induction l with
  | nil => exact absurd rfl h
  | cons a t ih =>
    by_cases ht : t = []
    · subst ht
      refine ⟨a, rfl, List.mem_cons_self a [], ?_, ?_⟩
      · simp [maxK]
      · simp [maxK, List.filter]
    · rcases ih ht with ⟨m, hm_eq, hm_mem, hm_key, hm_last⟩
      by_cases hlt : key m < key a
      · have hmax : maxK key (a :: t) = key a := by
          simp only [maxK]; omega
        refine ⟨a, ?_, List.mem_cons_self a t, ?_, ?_⟩
        · simp [lastMaxK, hm_eq, lastStep, hlt]
        · omega
        · rw [hmax]
          have hnil : List.filter (fun x => key x == key a) t = [] := by
            rw [List.filter_eq_nil_iff]
            intro x hx
            have hxm : key x ≤ maxK key t := le_maxK key t x hx
            simp only [beq_iff_eq]
            omega
          rw [List.filter_cons_of_pos (by simp), hnil]
          rfl
      · have hmax : maxK key (a :: t) = maxK key t := by
          simp only [maxK]; omega
        refine ⟨m, ?_, List.mem_cons_of_mem a hm_mem, ?_, ?_⟩
        · simp [lastMaxK, hm_eq, lastStep, hlt]
        · omega
        · rw [hmax]
          by_cases hqa : key a = maxK key t
          · have hne : List.filter (fun x => key x == maxK key t) t ≠ [] := by
              intro hnil
              rw [hnil] at hm_last
              simp at hm_last
            rw [List.filter_cons_of_pos (by simp [hqa]),
              getLast?_cons_of_ne_nil a _ hne]
            exact hm_last
          · rw [List.filter_cons_of_neg (by simp [hqa])]
            exact hm_last

theorem mem_dedupKeys (l : List Nat) (d : Nat) : d ∈ dedupKeys l ↔ d ∈ l := by
  induction l with
  | nil => simp [dedupKeys]
  | cons a t ih =>
    simp only [dedupKeys]
    by_cases ha : a ∈ dedupKeys t
    · rw [if_pos ha]
      constructor
      · intro hd; exact List.mem_cons_of_mem a (ih.mp hd)
      · intro hd
        rcases List.mem_cons.mp hd with rfl | hdt
        · exact ha
        · exact ih.mpr hdt
    · rw [if_neg ha]
      constructor
      · intro hd
        rcases List.mem_cons.mp hd with rfl | hdt
        · exact List.mem_cons_self d t
        · exact List.mem_cons_of_mem a (ih.mp hdt)
      · intro hd
        rcases List.mem_cons.mp hd with rfl | hdt
        · exact List.mem_cons_self d _
        · exact List.mem_cons_of_mem a (ih.mpr hdt)

theorem nodup_dedupKeys (l : List Nat) : (dedupKeys l).Nodup := by
  induction l with
  | nil => simp [dedupKeys]
  | cons a t ih =>
    simp only [dedupKeys]
    by_cases ha : a ∈ dedupKeys t
    · rw [if_pos ha]; exact ih
    · rw [if_neg ha]; exact List.nodup_cons.mpr ⟨ha, ih⟩

theorem pairwise_days_filterMap (f : Nat → Option Record) (keys : List Nat)
    (hf : ∀ d r, f d = some r → dayOf r = d)
    (h : keys.Pairwise (fun a b => a ≠ b)) :
    (keys.filterMap f).Pairwise (fun a b => dayOf a ≠ dayOf b) := by
  induction keys with
  | nil => simp
  | cons d t ih =>
    rcases List.pairwise_cons.mp h with ⟨hd, ht⟩
    cases hfd : f d with
    | none => simpa [List.filterMap_cons, hfd] using ih ht
    | some r =>
      rw [List.filterMap_cons, hfd]
      refine List.pairwise_cons.mpr ⟨?_, ih ht⟩
      intro x hx
      rcases List.mem_filterMap.mp hx with ⟨d', hd', hfd'⟩
      have h1 : dayOf r = d := hf d r hfd
      have h2 : dayOf x = d' := hf d' x hfd'
      have h3 : d ≠ d' := hd d' hd'
      omega

theorem pairwise_days_groupbyLast (rows : List Record) :
    (groupbyLast rows).Pairwise (fun a b => dayOf a ≠ dayOf b) := by
  unfold groupbyLast
  apply pairwise_days_filterMap
  · intro d r hdr
    have hmem : r ∈ rows.filter (fun s => dayOf s == d) :=
      List.mem_of_mem_getLast? (by simp [hdr])
    have := (List.mem_filter.mp hmem).2
    simpa using this
  · have h1 : (dedupKeys (rows.map dayOf)).Nodup := nodup_dedupKeys _
    exact (sortK_perm id (dedupKeys (rows.map dayOf))).symm.nodup h1

/-- The record this embedding keeps for calendar day `d` out of `rows`: a
member of the output, lying on day `d`, with the largest timestamp of that
day.  The final `getLast?` conjunct pins which of several equal-maximal-
timestamp records it is; that part reflects the tie order this embedding
fixes for the sort and is used downstream only through the day and
maximal-timestamp facts, which hold under any tie resolution. -/
theorem dedupe_day_spec (rows : List Record) (d : Nat)
    (h : rows.filter (fun s => dayOf s == d) ≠ []) :
    ∃ r, r ∈ dedupe rows ∧ dayOf r = d ∧
      ((rows.filter (fun s => dayOf s == d)).filter
          (fun s => s.ts ==
            maxK (fun x => x.ts) (rows.filter (fun s => dayOf s == d)))).getLast?
        = some r := by
  obtain ⟨m, hm_eq, hm_mem, hm_key, hm_last⟩ :=
    lastMaxK_spec (fun x => x.ts) (rows.filter (fun s => dayOf s == d)) h
  have hm_rows : m ∈ rows := (List.mem_filter.mp hm_mem).1
  have hm_day : dayOf m = d := by
    have := (List.mem_filter.mp hm_mem).2
    simpa using this
  refine ⟨m, ?_, hm_day, hm_last⟩
  have hsorted_rows := sortK_perm (fun r : Record => r.ts) rows
  have hfilter :
      (sortK (fun r : Record => r.ts) rows).filter (fun s => dayOf s == d)
        = sortK (fun r : Record => r.ts) (rows.filter (fun s => dayOf s == d)) :=
    filter_sortK (fun r : Record => r.ts) (fun s => dayOf s == d) rows
  have hglast :
      ((sortK (fun r : Record => r.ts) rows).filter (fun s => dayOf s == d)).getLast?
        = some m := by
    rw [hfilter, getLast?_sortK, hm_eq]
  have hd_mem : d ∈ (sortK (fun r : Record => r.ts) rows).map dayOf := by
    have : m ∈ sortK (fun r : Record => r.ts) rows := hsorted_rows.mem_iff.mpr hm_rows
    exact List.mem_map.mpr ⟨m, this, hm_day⟩
  have hd_keys :
      d ∈ sortK id (dedupKeys ((sortK (fun r : Record => r.ts) rows).map dayOf)) := by
    have h1 := (mem_dedupKeys ((sortK (fun r : Record => r.ts) rows).map dayOf) d).mpr hd_mem
    exact (sortK_perm id _).mem_iff.mpr h1
  have hgroup : m ∈ groupbyLast (sortK (fun r : Record => r.ts) rows) := by
    unfold groupbyLast
    exact List.mem_filterMap.mpr ⟨d, hd_keys, hglast⟩
  unfold dedupe
  exact (sortK_perm (fun r : Record => r.ts) _).mem_iff.mpr hgroup

/-- Day coverage: every input record's calendar day survives into the output,
represented by a record of that day whose timestamp is at least as late. -/
theorem dedupe_day_covered (rows : List Record) (r : Record) (hr : r ∈ rows) :
    ∃ x, x ∈ dedupe rows ∧ dayOf x = dayOf r ∧ r.ts ≤ x.ts := by
  have hg : rows.filter (fun s => dayOf s == dayOf r) ≠ [] := by
    intro hnil
    rw [List.filter_eq_nil_iff] at hnil
    exact hnil r hr (by simp)
  obtain ⟨x, hx_mem, hx_day, hx_last⟩ := dedupe_day_spec rows (dayOf r) hg
  refine ⟨x, hx_mem, hx_day, ?_⟩
  have hx_in :
      x ∈ (rows.filter (fun s => dayOf s == dayOf r)).filter
        (fun s => s.ts ==
          maxK (fun y => y.ts) (rows.filter (fun s => dayOf s == dayOf r))) :=
    List.mem_of_mem_getLast? (by rw [hx_last]; exact rfl)
  have hx_ts := (List.mem_filter.mp hx_in).2
  have hr_in_g : r ∈ rows.filter (fun s => dayOf s == dayOf r) :=
    List.mem_filter.mpr ⟨hr, by simp⟩
  have hle : r.ts ≤ maxK (fun y : Record => y.ts)
      (rows.filter (fun s => dayOf s == dayOf r)) :=
    le_maxK (fun y : Record => y.ts) _ r hr_in_g
  have hx_ts2 : x.ts = maxK (fun y : Record => y.ts)
      (rows.filter (fun s => dayOf s == dayOf r)) := by
    simpa using hx_ts
  omega

/-- C3: every dataset the merge & dedup engine produces has no two records on
the same calendar day, and is ordered ascending by timestamp. -/
theorem c3_dedup_invariant (rows : List Record) :
    (dedupe rows).Pairwise (fun a b => dayOf a ≠ dayOf b) ∧
    (dedupe rows).Pairwise (fun a b => a.ts ≤ b.ts) := by
  constructor
  · have hperm := sortK_perm (fun r : Record => r.ts)
      (groupbyLast (sortK (fun r : Record => r.ts) rows))
    have hiff := hperm.pairwise_iff
      (R := fun a b : Record => dayOf a ≠ dayOf b) (fun h => h.symm)
    exact hiff.mpr (pairwise_days_groupbyLast _)
  · exact sorted_sortK (fun r : Record => r.ts) _

/-- C9: saving a well-formed ledger and loading it back returns the same
ledger: `load(save(L)) == L`. -/
theorem c9_ledger_roundtrip (L : Ledger) :
    load_processed_files (save_processed_files L) = .ok L := rfl

/-- C6 counterexample: the claim says the ledger load never raises to the
caller for an unreadable persisted ledger, but when the file exists and
cannot be opened the exception propagates (the `open` call is outside the
`try` in lines 39-47). -/
theorem c6_unreadable_raises :
    load_processed_files LedgerDisk.unreadable = .error () := rfl

/-- C6 (amended): an absent file, corrupt/malformed JSON, or a legacy
list-shaped value each load as the empty ledger, and a well-formed mapping is
returned as-is; but an existing file whose `open` fails raises to the
caller. -/
theorem c6_ledger_load_degrades :
    load_processed_files LedgerDisk.absent = .ok []
    ∧ load_processed_files LedgerDisk.malformed = .ok []
    ∧ load_processed_files LedgerDisk.legacyList = .ok []
    ∧ (∀ m : Ledger, load_processed_files (.mapping m) = .ok m)
    ∧ load_processed_files LedgerDisk.unreadable = .error () :=
  ⟨rfl, rfl, rfl, fun _ => rfl, rfl⟩

theorem find?_map_lset (l : Ledger) (k : String) (v : Nat)
    (h : l.any (fun p => p.1 == k) = true) :
    (l.map (fun p => if p.1 == k then (k, v) else p)).find? (fun p => p.1 == k)
      = some (k, v) := by
  induction l with
  | nil => simp at h
  | cons p t ih =>
    rw [List.map_cons]
    by_cases hp : (p.1 == k) = true
    · rw [if_pos hp]
      simp [List.find?_cons]
    · rw [if_neg hp]
      have hany : t.any (fun q => q.1 == k) = true := by
        rcases List.any_eq_true.mp h with ⟨q, hq, hqk⟩
        rcases List.mem_cons.mp hq with rfl | hqt
        · exact absurd hqk hp
        · exact List.any_eq_true.mpr ⟨q, hqt, hqk⟩
      have hp' : (p.1 == k) = false := by simpa using hp
      simp only [List.find?_cons, hp']
      exact ih hany

theorem find?_map_lset_ne (l : Ledger) (k n : String) (v : Nat) (h : n ≠ k) :
    (l.map (fun p => if p.1 == k then (k, v) else p)).find? (fun p => p.1 == n)
      = l.find? (fun p => p.1 == n) := by
  induction l with
  | nil => rfl
  | cons p t ih =>
    rw [List.map_cons]
    by_cases hp : (p.1 == k) = true
    · have hk : p.1 = k := by simpa using hp
      rw [if_pos hp]
      have h1 : (k == n) = false := beq_eq_false_iff_ne.mpr (Ne.symm h)
      have h2 : (p.1 == n) = false := by rw [hk]; exact h1
      simp only [List.find?_cons, h1, h2]
      exact ih
    · rw [if_neg hp]
      by_cases hn : (p.1 == n) = true
      · simp only [List.find?_cons, hn]
      · have hn' : (p.1 == n) = false := by simpa using hn
        simp only [List.find?_cons, hn']
        exact ih

theorem lget_lset_self (l : Ledger) (k : String) (v : Nat) :
    lget (lset l k v) k = some v := by
  unfold lget lset
  by_cases h : l.any (fun p => p.1 == k) = true
  · rw [if_pos h, find?_map_lset l k v h]
    rfl
  · rw [if_neg h, List.find?_append]
    have hnone : l.find? (fun p => p.1 == k) = none := by
      rw [List.find?_eq_none]
      intro p hp hpk
      exact h (List.any_eq_true.mpr ⟨p, hp, hpk⟩)
    rw [hnone]
    simp [List.find?]

theorem lget_lset_ne (l : Ledger) (k n : String) (v : Nat) (h : n ≠ k) :
    lget (lset l k v) n = lget l n := by
  unfold lget lset
  by_cases hany : l.any (fun p => p.1 == k) = true
  · rw [if_pos hany, find?_map_lset_ne l k n v h]
  · rw [if_neg hany, List.find?_append]
    have hkn : (k == n) = false := beq_eq_false_iff_ne.mpr (Ne.symm h)
    have hnil : List.find? (fun p => p.1 == n) [(k, v)] = none := by
      simp only [List.find?_cons, hkn]
      rfl
    rw [hnil, Option.or_none]

theorem lget_lset_isSome (l : Ledger) (k n : String) (v : Nat)
    (h : (lget l n).isSome = true) : (lget (lset l k v) n).isSome = true := by
  by_cases hn : n = k
  · subst hn
    rw [lget_lset_self]
    rfl
  · rw [lget_lset_ne l k n v hn]
    exact h

theorem foldl_step_pres (processed : Ledger) (files : List SrcFile)
    (P : ScanAcc → Prop)
    (hstep : ∀ acc f, f ∈ files → P acc → P (processStep processed acc f))
    (acc : ScanAcc) (h : P acc) :
    P (files.foldl (processStep processed) acc) := by
  induction files generalizing acc with
  | nil => exact h
  | cons f t ih =>
    rw [List.foldl_cons]
    exact ih (fun a g hg => hstep a g (List.mem_cons_of_mem f hg)) _
      (hstep acc f (List.mem_cons_self f t) h)

theorem foldl_no_success (processed : Ledger) (files : List SrcFile)
    (acc : ScanAcc)
    (h : ∀ f ∈ files, lget processed f.name = some f.mtime ∨ f.parsed = none) :
    (files.foldl (processStep processed) acc).rows = acc.rows
    ∧ (files.foldl (processStep processed) acc).upd = acc.upd
    ∧ (files.foldl (processStep processed) acc).newData = acc.newData := by
  induction files generalizing acc with
  | nil => exact ⟨rfl, rfl, rfl⟩
  | cons f t ih =>
    rw [List.foldl_cons]
    have hstep : (processStep processed acc f).rows = acc.rows
        ∧ (processStep processed acc f).upd = acc.upd
        ∧ (processStep processed acc f).newData = acc.newData := by
      unfold processStep
      by_cases hskip : lget processed f.name = some f.mtime
      · rw [if_pos hskip]
        exact ⟨rfl, rfl, rfl⟩
      · rcases h f (List.mem_cons_self f t) with hc | hc
        · exact absurd hc hskip
        · rw [if_neg hskip, hc]
          exact ⟨rfl, rfl, rfl⟩
    obtain ⟨h1, h2, h3⟩ := ih _ (fun g hg => h g (List.mem_cons_of_mem f hg))
    obtain ⟨g1, g2, g3⟩ := hstep
    exact ⟨h1.trans g1, h2.trans g2, h3.trans g3⟩

theorem foldl_lget_preserved (processed : Ledger) (files : List SrcFile)
    (acc : ScanAcc) (n : String)
    (h : ∀ f ∈ files, f.name = n →
      lget processed f.name = some f.mtime ∨ f.parsed = none) :
    lget (files.foldl (processStep processed) acc).upd n = lget acc.upd n := by
  induction files generalizing acc with
  | nil => rfl
  | cons f t ih =>
    rw [List.foldl_cons]
    rw [ih _ (fun g hg => h g (List.mem_cons_of_mem f hg))]
    unfold processStep
    by_cases hskip : lget processed f.name = some f.mtime
    · rw [if_pos hskip]
    · rw [if_neg hskip]
      cases hp : f.parsed with
      | none => rfl
      | some recs =>
        have hfn : f.name ≠ n := by
          intro heq
          rcases h f (List.mem_cons_self f t) heq with hc | hc
          · exact hskip hc
          · rw [hp] at hc; cases hc
        exact lget_lset_ne acc.upd f.name n f.mtime (Ne.symm hfn)

theorem foldl_lget_success (processed : Ledger) (files : List SrcFile)
    (acc : ScanAcc) (f : SrcFile)
    (hnd : (files.map (fun g => g.name)).Nodup)
    (hf : f ∈ files) (hp : f.parsed.isSome = true)
    (hacc : lget acc.upd f.name = lget processed f.name) :
    lget (files.foldl (processStep processed) acc).upd f.name = some f.mtime := by
  induction files generalizing acc with
  | nil => cases hf
  | cons g t ih =>
    rw [List.foldl_cons]
    have hnd_t : (t.map (fun x => x.name)).Nodup := (List.nodup_cons.mp hnd).2
    have hg_not : g.name ∉ t.map (fun x => x.name) := (List.nodup_cons.mp hnd).1
    rcases List.mem_cons.mp hf with rfl | hft
    · have hrest : ∀ x ∈ t, x.name = f.name →
          lget processed x.name = some x.mtime ∨ x.parsed = none := by
        intro x hx hxn
        exact absurd (List.mem_map.mpr ⟨x, hx, hxn⟩) hg_not
      rw [foldl_lget_preserved processed t _ f.name hrest]
      unfold processStep
      by_cases hskip : lget processed f.name = some f.mtime
      · rw [if_pos hskip]
        rw [hacc]
        exact hskip
      · rw [if_neg hskip]
        cases hps : f.parsed with
        | none => rw [hps] at hp; cases hp
        | some recs => exact lget_lset_self acc.upd f.name f.mtime
    · apply ih _ hnd_t hft
      have hgf : g.name ≠ f.name := by
        intro he
        exact hg_not (he ▸ List.mem_map.mpr ⟨f, hft, rfl⟩)
      unfold processStep
      by_cases hskip : lget processed g.name = some g.mtime
      · rw [if_pos hskip]
        exact hacc
      · rw [if_neg hskip]
        cases hgp : g.parsed with
        | none => exact hacc
        | some recs =>
          exact (lget_lset_ne acc.upd g.name f.name g.mtime (Ne.symm hgf)).trans hacc

theorem foldl_success_contrib (processed : Ledger) (files : List SrcFile)
    (acc : ScanAcc) (f : SrcFile) (recs : List Record)
    (hf : f ∈ files) (hneed : ¬ lget processed f.name = some f.mtime)
    (hp : f.parsed = some recs) :
    (files.foldl (processStep processed) acc).newData = true
    ∧ ∀ r ∈ recs, r ∈ (files.foldl (processStep processed) acc).rows := by
  induction files generalizing acc with
  | nil => cases hf
  | cons g t ih =>
    rw [List.foldl_cons]
    rcases List.mem_cons.mp hf with rfl | hft
    · have hstep_nd : (processStep processed acc f).newData = true := by
        unfold processStep
        rw [if_neg hneed, hp]
      have hstep_rows : ∀ r ∈ recs, r ∈ (processStep processed acc f).rows := by
        unfold processStep
        rw [if_neg hneed, hp]
        intro r hr
        exact List.mem_append.mpr (Or.inr hr)
      constructor
      · refine foldl_step_pres processed t (fun a => a.newData = true) ?_ _ hstep_nd
        intro a g _ ha
        unfold processStep
        by_cases hs : lget processed g.name = some g.mtime
        · rw [if_pos hs]; exact ha
        · rw [if_neg hs]
          cases g.parsed with
          | none => exact ha
          | some recs2 => rfl
      · intro r hr
        refine foldl_step_pres processed t (fun a => r ∈ a.rows) ?_ _
          (hstep_rows r hr)
        intro a g _ ha
        unfold processStep
        by_cases hs : lget processed g.name = some g.mtime
        · rw [if_pos hs]; exact ha
        · rw [if_neg hs]
          cases g.parsed with
          | none => exact ha
          | some recs2 => exact List.mem_append.mpr (Or.inl ha)
    · exact ih _ hft

theorem foldl_fail_contrib (processed : Ledger) (files : List SrcFile)
    (acc : ScanAcc) (f : SrcFile)
    (hf : f ∈ files) (hneed : ¬ lget processed f.name = some f.mtime)
    (hp : f.parsed = none) :
    f.name ∈ (files.foldl (processStep processed) acc).errs := by
  induction files generalizing acc with
  | nil => cases hf
  | cons g t ih =>
    rw [List.foldl_cons]
    rcases List.mem_cons.mp hf with rfl | hft
    · have hstep : f.name ∈ (processStep processed acc f).errs := by
        unfold processStep
        rw [if_neg hneed, hp]
        exact List.mem_append.mpr (Or.inr (List.mem_cons_self _ _))
      refine foldl_step_pres processed t (fun a => f.name ∈ a.errs) ?_ _ hstep
      intro a g _ ha
      unfold processStep
      by_cases hs : lget processed g.name = some g.mtime
      · rw [if_pos hs]; exact ha
      · rw [if_neg hs]
        cases g.parsed with
        | none => exact List.mem_append.mpr (Or.inl ha)
        | some recs2 => exact ha
    · exact ih _ hft

/-- C4: a scanned file is reprocessed iff its current modification timestamp
is absent from the ledger or differs from the stored value in either
direction; when the stored timestamp equals the current one the loop
iteration leaves the state untouched (the file is skipped), and otherwise the
file is parsed again (reprocessed). -/
theorem c4_reprocessing_trigger (processed : Ledger) (f : SrcFile) :
    (needsProcessing processed f = true ↔
      lget processed f.name = none ∨
        ∃ t, lget processed f.name = some t ∧ t ≠ f.mtime)
    ∧ (needsProcessing processed f = false →
        ∀ acc, processStep processed acc f = acc)
    ∧ (needsProcessing processed f = true →
        ∀ acc, processStep processed acc f =
          match f.parsed with
          | some recs =>
            { acc with
              rows := acc.rows ++ recs
              upd := lset acc.upd f.name f.mtime
              newData := true }
          | none => { acc with errs := acc.errs ++ [f.name] }) := by
  refine ⟨?_, ?_, ?_⟩
  · unfold needsProcessing
    rcases hl : lget processed f.name with _ | t
    · simp
    · simp
  · intro h acc
    have hsk : lget processed f.name = some f.mtime := by
      simpa [needsProcessing] using h
    unfold processStep
    rw [if_pos hsk]
  · intro h acc
    have hsk : ¬ lget processed f.name = some f.mtime := by
      simpa [needsProcessing] using h
    unfold processStep
    rw [if_neg hsk]

/-- C4 witness: with a ledger entry "a.csv" at stored timestamp 5, the file
is skipped (the iteration is the identity) at current timestamp 5, and is
classified as needing processing at timestamps 6 and 4. -/
theorem c4_reprocessing_trigger_witness :
    processStep [("a.csv", 5)] ⟨[], [("a.csv", 5)], false, []⟩ ⟨"a.csv", 5, none⟩
        = ⟨[], [("a.csv", 5)], false, []⟩
    ∧ needsProcessing [("a.csv", 5)] ⟨"a.csv", 5, none⟩ = false
    ∧ needsProcessing [("a.csv", 5)] ⟨"a.csv", 6, none⟩ = true
    ∧ needsProcessing [("a.csv", 5)] ⟨"a.csv", 4, none⟩ = true :=
  ⟨(c4_reprocessing_trigger [("a.csv", 5)] ⟨"a.csv", 5, none⟩).2.1 (by decide) _,
   by decide, by decide, by decide⟩

/-- C10: the ledger produced by the file loop keeps every key of the loaded
ledger (entries of deleted source files are never pruned), and a key for
which no scanned file was successfully reprocessed keeps its loaded value
unchanged. -/
theorem c10_ledger_never_pruned (processed : Ledger) (files : List SrcFile)
    (k : String) :
    ((lget processed k).isSome = true →
      (lget (processFold processed files).upd k).isSome = true)
    ∧ ((∀ f ∈ files, f.name = k →
          needsProcessing processed f = false ∨ f.parsed = none) →
        lget (processFold processed files).upd k = lget processed k) := by
  constructor
  · intro h
    refine foldl_step_pres processed files
      (fun a => (lget a.upd k).isSome = true) ?_ _ h
    intro a f _ ha
    unfold processStep
    by_cases hs : lget processed f.name = some f.mtime
    · rw [if_pos hs]; exact ha
    · rw [if_neg hs]
      cases f.parsed with
      | none => exact ha
      | some recs => exact lget_lset_isSome a.upd f.name k f.mtime ha
  · intro h
    refine foldl_lget_preserved processed files ⟨[], processed, false, []⟩ k ?_
    intro f hf hfk
    rcases h f hf hfk with hc | hc
    · left
      simpa [needsProcessing] using hc
    · right; exact hc

/-- C10 witness: a ledger entry for a file that no longer exists in the
directory survives a run with a fresh file, and is returned unchanged by a
run over an empty directory. -/
theorem c10_ledger_never_pruned_witness :
    ((lget [("gone.csv", 3)] "gone.csv").isSome = true)
    ∧ (lget (processFold [("gone.csv", 3)]
        [⟨"new.csv", 7, some []⟩]).upd "gone.csv").isSome = true
    ∧ lget (processFold [("gone.csv", 3)] []).upd "gone.csv"
        = lget [("gone.csv", 3)] "gone.csv" :=
  ⟨by decide,
   (c10_ledger_never_pruned [("gone.csv", 3)] [⟨"new.csv", 7, some []⟩]
      "gone.csv").1 (by decide),
   (c10_ledger_never_pruned [("gone.csv", 3)] [] "gone.csv").2
      (by intro f hf; cases hf)⟩

/-- C5: in a batch holding a failing file `b` and a successfully parsed file
`g` that needs processing, the run still loads `g`'s records (each survives
into the deduplicated dataset as its day's latest reading), emits a
diagnostic naming `b`, and leaves `b`'s ledger entry untouched, so `b` still
needs processing on the next run. -/
theorem c5_partial_failure_isolation (processed : Ledger) (files : List SrcFile)
    (g b : SrcFile) (recs : List Record)
    (hnd : (files.map (fun x => x.name)).Nodup)
    (hg : g ∈ files) (hgp : g.parsed = some recs)
    (hgn : needsProcessing processed g = true)
    (hb : b ∈ files) (hbp : b.parsed = none)
    (hbn : needsProcessing processed b = true) :
    (processFold processed files).newData = true
    ∧ (∀ r ∈ recs, r ∈ (processFold processed files).rows)
    ∧ (∀ r ∈ recs, ∃ x, x ∈ dedupe (processFold processed files).rows ∧
        dayOf x = dayOf r ∧ r.ts ≤ x.ts)
    ∧ b.name ∈ (processFold processed files).errs
    ∧ lget (processFold processed files).upd b.name = lget processed b.name
    ∧ needsProcessing (processFold processed files).upd b = true := by
  have hgneed : ¬ lget processed g.name = some g.mtime := by
    simpa [needsProcessing] using hgn
  have hbneed : ¬ lget processed b.name = some b.mtime := by
    simpa [needsProcessing] using hbn
  obtain ⟨h1, h2⟩ := foldl_success_contrib processed files
    ⟨[], processed, false, []⟩ g recs hg hgneed hgp
  have h4 := foldl_fail_contrib processed files
    ⟨[], processed, false, []⟩ b hb hbneed hbp
  have h5 : lget (processFold processed files).upd b.name
      = lget processed b.name := by
    refine foldl_lget_preserved processed files ⟨[], processed, false, []⟩
      b.name ?_
    intro f hf hfb
    right
    have hfb2 : f = b := List.inj_on_of_nodup_map hnd hf hb hfb
    rw [hfb2, hbp]
  refine ⟨h1, h2, ?_, h4, h5, ?_⟩
  · intro r hr
    exact dedupe_day_covered _ r (h2 r hr)
  · unfold needsProcessing at hbn ⊢
    rw [h5]
    exact hbn

/-- C5 witness: the spec's scenario — "bad.csv" (timestamp column missing,
parse fails) and "good.csv" (valid, one record) in one batch over an empty
ledger. -/
theorem c5_partial_failure_isolation_witness :
    (processFold [] [⟨"bad.csv", 7, none⟩,
        ⟨"good.csv", 3, some [⟨100, mkRat 60 1, mkRat 18 1, mkRat 37 1⟩]⟩]).newData = true
    ∧ (∀ r ∈ [(⟨100, mkRat 60 1, mkRat 18 1, mkRat 37 1⟩ : Record)],
        r ∈ (processFold [] [⟨"bad.csv", 7, none⟩,
          ⟨"good.csv", 3, some [⟨100, mkRat 60 1, mkRat 18 1, mkRat 37 1⟩]⟩]).rows)
    ∧ (∀ r ∈ [(⟨100, mkRat 60 1, mkRat 18 1, mkRat 37 1⟩ : Record)],
        ∃ x, x ∈ dedupe (processFold [] [⟨"bad.csv", 7, none⟩,
            ⟨"good.csv", 3, some [⟨100, mkRat 60 1, mkRat 18 1, mkRat 37 1⟩]⟩]).rows ∧
          dayOf x = dayOf r ∧ r.ts ≤ x.ts)
    ∧ "bad.csv" ∈ (processFold [] [⟨"bad.csv", 7, none⟩,
        ⟨"good.csv", 3, some [⟨100, mkRat 60 1, mkRat 18 1, mkRat 37 1⟩]⟩]).errs
    ∧ lget (processFold [] [⟨"bad.csv", 7, none⟩,
        ⟨"good.csv", 3, some [⟨100, mkRat 60 1, mkRat 18 1, mkRat 37 1⟩]⟩]).upd "bad.csv"
        = lget [] "bad.csv"
    ∧ needsProcessing (processFold [] [⟨"bad.csv", 7, none⟩,
        ⟨"good.csv", 3, some [⟨100, mkRat 60 1, mkRat 18 1, mkRat 37 1⟩]⟩]).upd
        ⟨"bad.csv", 7, none⟩ = true :=
  c5_partial_failure_isolation []
    [⟨"bad.csv", 7, none⟩,
      ⟨"good.csv", 3, some [⟨100, mkRat 60 1, mkRat 18 1, mkRat 37 1⟩]⟩]
    ⟨"good.csv", 3, some [⟨100, mkRat 60 1, mkRat 18 1, mkRat 37 1⟩]⟩
    ⟨"bad.csv", 7, none⟩
    [⟨100, mkRat 60 1, mkRat 18 1, mkRat 37 1⟩]
    (by decide)
    (by decide) rfl (by decide)
    (by decide) rfl (by decide)

/-- C8: when no scanned file is processable (empty directory, only unchanged
files, or only failing files) and no snapshot exists, the pipeline returns
the empty dataset with "new data" = false without writing anything, and the
top level turns the empty dataset into the terminal "no valid data" view
rather than crashing. -/
theorem c8_cold_start (dir : List SrcFile) (fs : FS) (processed : Ledger)
    (hload : load_processed_files fs.ledger = .ok processed)
    (hsnap : fs.snapshot = none)
    (hfiles : ∀ f ∈ csvFiles dir,
      needsProcessing processed f = true → f.parsed = none) :
    runPipeline dir fs =
      .ok ([], false, fs, (processFold processed (csvFiles dir)).errs)
    ∧ mainView [] false = MainView.noDataError := by
  constructor
  · unfold runPipeline
    rw [hload]
    rw [show (Except.ok processed : Except Unit Ledger).map (mergeRun dir fs)
        = Except.ok (mergeRun dir fs processed) from rfl]
    have hskip : ∀ f ∈ csvFiles dir,
        lget processed f.name = some f.mtime ∨ f.parsed = none := by
      intro f hf
      by_cases hn : lget processed f.name = some f.mtime
      · exact Or.inl hn
      · refine Or.inr (hfiles f hf ?_)
        simp [needsProcessing, hn]
    have hnf := foldl_no_success processed (csvFiles dir)
      ⟨[], processed, false, []⟩ hskip
    have hnd : (processFold processed (csvFiles dir)).newData = false := hnf.2.2
    unfold mergeRun
    rw [if_neg (by rw [hnd]; exact Bool.false_ne_true), hsnap]
  · rfl

/-- C8 witness: an empty data directory, an absent ledger file and no
snapshot. -/
theorem c8_cold_start_witness :
    runPipeline [] ⟨LedgerDisk.absent, none⟩ =
      .ok ([], false, ⟨LedgerDisk.absent, none⟩, (processFold [] (csvFiles [])).errs)
    ∧ mainView [] false = MainView.noDataError :=
  c8_cold_start [] ⟨LedgerDisk.absent, none⟩ [] rfl rfl
    (by intro f hf; cases hf)

/-- C7: a second run over an unchanged directory returns the same dataset as
the first run produced, reports "new data" = false, and leaves the filesystem
state (ledger file and snapshot file) exactly as the first run left it. -/
theorem c7_idempotent (dir : List SrcFile) (fs : FS) (out : List Record)
    (b : Bool) (fs2 : FS) (errs : List String)
    (hnd : ((csvFiles dir).map (fun f => f.name)).Nodup)
    (h : runPipeline dir fs = .ok (out, b, fs2, errs)) :
    ∃ errs2, runPipeline dir fs2 = .ok (out, false, fs2, errs2) := by
  unfold runPipeline at h
  cases hload : load_processed_files fs.ledger with
  | error e =>
    rw [hload] at h
    simp [Except.map] at h
  | ok processed =>
    rw [hload] at h
    rw [show (Except.ok processed : Except Unit Ledger).map (mergeRun dir fs)
        = Except.ok (mergeRun dir fs processed) from rfl] at h
    have hm : mergeRun dir fs processed = (out, b, fs2, errs) := Except.ok.inj h
    by_cases hnew : (processFold processed (csvFiles dir)).newData = true
    · unfold mergeRun at hm
      rw [if_pos hnew] at hm
      simp only [Prod.mk.injEq] at hm
      obtain ⟨hout, hb, hfs2, herrs⟩ := hm
      refine ⟨(processFold (processFold processed (csvFiles dir)).upd
        (csvFiles dir)).errs, ?_⟩
      have hskip : ∀ f ∈ csvFiles dir,
          lget (processFold processed (csvFiles dir)).upd f.name = some f.mtime
            ∨ f.parsed = none := by
        intro f hf
        cases hfp : f.parsed with
        | none => exact Or.inr rfl
        | some recs =>
          left
          exact foldl_lget_success processed (csvFiles dir)
            ⟨[], processed, false, []⟩ f hnd hf (by rw [hfp]; rfl) rfl
      have hnf := foldl_no_success (processFold processed (csvFiles dir)).upd
        (csvFiles dir) ⟨[], (processFold processed (csvFiles dir)).upd, false, []⟩
        hskip
      have hnd2 : (processFold (processFold processed (csvFiles dir)).upd
          (csvFiles dir)).newData = false := hnf.2.2
      rw [← hfs2]
      unfold runPipeline
      rw [show load_processed_files
          (FS.mk (save_processed_files (processFold processed (csvFiles dir)).upd)
            (some (dedupe (processFold processed (csvFiles dir)).rows))).ledger
          = Except.ok (processFold processed (csvFiles dir)).upd from rfl]
      rw [show (Except.ok (processFold processed (csvFiles dir)).upd :
            Except Unit Ledger).map
            (mergeRun dir ⟨save_processed_files (processFold processed (csvFiles dir)).upd,
              some (dedupe (processFold processed (csvFiles dir)).rows)⟩)
          = Except.ok (mergeRun dir
              ⟨save_processed_files (processFold processed (csvFiles dir)).upd,
                some (dedupe (processFold processed (csvFiles dir)).rows)⟩
              (processFold processed (csvFiles dir)).upd) from rfl]
      unfold mergeRun
      rw [if_neg (by rw [hnd2]; exact Bool.false_ne_true)]
      rw [← hout]
    · unfold mergeRun at hm
      rw [if_neg hnew] at hm
      cases hsnap : fs.snapshot with
      | some d =>
        rw [hsnap] at hm
        simp only [Prod.mk.injEq] at hm
        obtain ⟨hout, hb, hfs2, herrs⟩ := hm
        refine ⟨(processFold processed (csvFiles dir)).errs, ?_⟩
        rw [← hfs2]
        unfold runPipeline
        rw [hload]
        rw [show (Except.ok processed : Except Unit Ledger).map (mergeRun dir fs)
            = Except.ok (mergeRun dir fs processed) from rfl]
        unfold mergeRun
        rw [if_neg hnew, hsnap, ← hout]
      | none =>
        rw [hsnap] at hm
        simp only [Prod.mk.injEq] at hm
        obtain ⟨hout, hb, hfs2, herrs⟩ := hm
        refine ⟨(processFold processed (csvFiles dir)).errs, ?_⟩
        rw [← hfs2]
        unfold runPipeline
        rw [hload]
        rw [show (Except.ok processed : Except Unit Ledger).map (mergeRun dir fs)
            = Except.ok (mergeRun dir fs processed) from rfl]
        unfold mergeRun
        rw [if_neg hnew, hsnap, ← hout]

/-- C7 witness: a first run ingests "a.csv" into the snapshot; the second run
over the unchanged directory returns the same dataset with "new data" =
false and leaves the state untouched. -/
theorem c7_idempotent_witness :
    ∃ errs2, runPipeline
        [⟨"a.csv", 1, some [⟨480, mkRat 60 1, mkRat 18 1, mkRat 37 1⟩]⟩]
        ⟨LedgerDisk.mapping [("a.csv", 1)],
          some [⟨480, mkRat 60 1, mkRat 18 1, mkRat 37 1⟩]⟩
      = .ok ([⟨480, mkRat 60 1, mkRat 18 1, mkRat 37 1⟩], false,
          ⟨LedgerDisk.mapping [("a.csv", 1)],
            some [⟨480, mkRat 60 1, mkRat 18 1, mkRat 37 1⟩]⟩, errs2) :=
  c7_idempotent
    [⟨"a.csv", 1, some [⟨480, mkRat 60 1, mkRat 18 1, mkRat 37 1⟩]⟩]
    ⟨LedgerDisk.absent, none⟩
    [⟨480, mkRat 60 1, mkRat 18 1, mkRat 37 1⟩] true
    ⟨LedgerDisk.mapping [("a.csv", 1)],
      some [⟨480, mkRat 60 1, mkRat 18 1, mkRat 37 1⟩]⟩
    [] (by decide) rfl

/-- C1 (code bug): with an existing snapshot holding a day-0 record and a
ledger marking "old.csv" as current, a run that picks up only "new.csv"
persists a snapshot holding the new file's records alone: the day-0 record
of the existing snapshot is absent from the output although no same-day
incoming record supersedes it, because lines 58-89 never read
`cached_merged_df.pkl` into `merged_df` before deduplicating and writing. -/
theorem c1_snapshot_not_merged :
    runPipeline
      [⟨"old.csv", 1, some [⟨0, mkRat 60 1, mkRat 20 1, mkRat 35 1⟩]⟩,
       ⟨"new.csv", 5, some [⟨1440, mkRat 59 1, mkRat 19 1, mkRat 36 1⟩]⟩]
      ⟨LedgerDisk.mapping [("old.csv", 1)],
        some [⟨0, mkRat 60 1, mkRat 20 1, mkRat 35 1⟩]⟩
    = .ok ([⟨1440, mkRat 59 1, mkRat 19 1, mkRat 36 1⟩], true,
        ⟨LedgerDisk.mapping [("old.csv", 1), ("new.csv", 5)],
          some [⟨1440, mkRat 59 1, mkRat 19 1, mkRat 36 1⟩]⟩, [])
    ∧ dayOf ⟨0, mkRat 60 1, mkRat 20 1, mkRat 35 1⟩
        ∉ ([⟨1440, mkRat 59 1, mkRat 19 1, mkRat 36 1⟩] : List Record).map dayOf
    ∧ dayOf ⟨1440, mkRat 59 1, mkRat 19 1, mkRat 36 1⟩
        ≠ dayOf ⟨0, mkRat 60 1, mkRat 20 1, mkRat 35 1⟩ :=
  ⟨rfl, by decide, by decide⟩
